import Mathlib

/-!
Verification development for the ingestion-and-retrieval pipeline
(`src/server` of the repository): the sentence-aware chunker, the
fallback vector store, the retrieval threshold filter, the cosine
distance, and the incremental ingestion loop with its checksum index.

Python strings are modelled as `List Char`, bytes as `List Nat`,
floats as real numbers (for the cosine distance) or rationals (for
threshold comparisons), and fallible calls as `Except`/outcome fields
of an explicit environment.
-/

namespace Spec2Proof

/-! ### Text primitives

`str.strip()` and the sentence-splitting regex `(?<=[.!?])\s+` of
`src/server/ingest.py`. -/

/-- Python's `str.isspace` characters relevant to `strip`/`\s` (ASCII model). -/
def pyIsSpace (c : Char) : Bool :=
  c == ' ' || c == '\t' || c == '\n' || c == '\r' || c == '\x0b' || c == '\x0c'

/-- Python `str.strip()`: remove leading and trailing whitespace. -/
def pyStrip (s : List Char) : List Char :=
  ((s.dropWhile pyIsSpace).reverse.dropWhile pyIsSpace).reverse

/-- Python `s[-n:]` for `n > 0`: the last `n` characters (all of `s` if shorter). -/
def lastN (n : Nat) (s : List Char) : List Char :=
  s.drop (s.length - n)

/-- Python `" ".join(parts)`. -/
def joinSpace : List (List Char) → List Char
  | [] => []
  | [x] => x
  | x :: y :: xs => x ++ ' ' :: joinSpace (y :: xs)

/-- Sentence-ending punctuation of the split pattern `(?<=[.!?])\s+`. -/
def sentEnd (c : Char) : Bool :=
  c == '.' || c == '!' || c == '?'

/-- Whether a character list starts with a whitespace character. -/
def headIsSpace : List Char → Bool
  | [] => false
  | c :: _ => pyIsSpace c

theorem dropWhileLenLe (p : Char → Bool) (l : List Char) :
    (l.dropWhile p).length ≤ l.length := by
  induction l with
  | nil => simp
  | cons c rest ih =>
    rw [List.dropWhile_cons]
    split
    · exact Nat.le_succ_of_le ih
    · exact Nat.le_refl _

/-- Scan for `re.split(r"(?<=[.!?])\s+", text)`: a split point is a
whitespace run immediately preceded by `.`, `!` or `?`; the whole run is
consumed and does not appear in any piece. `acc` is the current piece,
reversed.  The fuel argument (structural recursion so that the kernel
can evaluate the scan) bounds the number of iterations; each iteration
consumes at least one character, so fuel equal to the text length
suffices and the zero-fuel case is unreachable. -/
def splitSentencesAux : Nat → List Char → List Char → List (List Char)
  | _, [], acc => [acc.reverse]
  | fuel + 1, c :: rest, acc =>
    if sentEnd c && headIsSpace rest then
      (acc.reverse ++ [c]) :: splitSentencesAux fuel (rest.dropWhile pyIsSpace) []
    else
      splitSentencesAux fuel rest (c :: acc)
  | 0, l, acc => [acc.reverse ++ l]

/-- `re.split(r"(?<=[.!?])\s+", text)` (ingest.py line 40). -/
def splitSentences (t : List Char) : List (List Char) :=
  splitSentencesAux t.length t []

/-! ### The chunker `_chunk_text` (ingest.py lines 34-67) -/

/-- Loop state of the greedy sentence-packing loop: the closed chunks,
the current buffer (`current`), and the running length counter
(`current_len`). -/
structure ChunkState where
  chunks : List (List Char)
  current : List (List Char)
  currentLen : Nat
deriving DecidableEq

/-- Lines 50-51 / 60-61: `if current: chunks.append(" ".join(current).strip())`. -/
def closeChunk (st : ChunkState) : List (List Char) :=
  if st.current.isEmpty then st.chunks
  else st.chunks ++ [pyStrip (joinSpace st.current)]

/-- One iteration of the `for sent in sentences` loop (lines 44-59). -/
def chunkStep (chunkSize overlap : Nat) (st : ChunkState) (sent : List Char) : ChunkState :=
  if st.currentLen + sent.length + 1 ≤ chunkSize then
    { st with
        current := st.current ++ [sent],
        currentLen := st.currentLen + sent.length + 1 }
  else
    let chunks := closeChunk st
    if chunks ≠ [] ∧ 0 < overlap then
      let carry := lastN overlap (chunks.getLastD [])
      { chunks := chunks, current := [carry, sent],
        currentLen := carry.length + 1 + sent.length }
    else
      { chunks := chunks, current := [sent], currentLen := sent.length }

/-- Lines 64-66: fixed-width slices `text[i : i + chunk_size]` for
`i in range(0, len(text), chunk_size - overlap)` (modelled for a
positive stride; Python raises on a zero step). -/
def slicesFallback (t : List Char) (chunkSize overlap : Nat) : List (List Char) :=
  let step := chunkSize - overlap
  (List.range ((t.length + step - 1) / step)).map
    (fun k => (t.drop (k * step)).take chunkSize)

/-- `_chunk_text(text, chunk_size, overlap)` (ingest.py lines 34-67). -/
def chunkText (text : List Char) (chunkSize overlap : Nat) : List (List Char) :=
  let t := pyStrip text
  if t.isEmpty then []
  else
    let sents := splitSentences t
    let st := sents.foldl (chunkStep chunkSize overlap) ⟨[], [], 0⟩
    let chunks := closeChunk st
    let chunks := if chunks.isEmpty then slicesFallback t chunkSize overlap else chunks
    chunks.filter (fun c => !c.isEmpty)

/-! ### SimpleStore, the fallback vector store (src/server/simple_store.py) -/

/-- Metadata dictionaries are modelled as association lists. -/
abbrev Meta := List (String × String)

/-- A record of the fallback store: `{id, document, metadata, embedding}`
(simple_store.py lines 49-54). -/
structure SRec where
  id : String
  document : String
  metadata : Meta
  embedding : List ℚ
deriving DecidableEq

/-- `SimpleStore.upsert` (lines 47-55): `for i, id_ in enumerate(ids)`,
build the record from `ids[i]`, `documents[i]`, `metadatas[i]`,
`embeddings[i]` and `_append` it to the in-memory `_docs` list.  The
Bool result is `false` when an index lookup fails (Python raises
`IndexError`, after having appended the records built so far). -/
def upsertAux (docs : List SRec) :
    List String → List String → List Meta → List (List ℚ) → List SRec × Bool
  | [], _, _, _ => (docs, true)
  | i :: is, d :: ds, m :: ms, e :: es => upsertAux (docs ++ [⟨i, d, m, e⟩]) is ds ms es
  | _ :: _, _, _, _ => (docs, false)

/-- `SimpleStore.upsert` on the in-memory record list `_docs`. -/
def simpleUpsert (docs : List SRec) (ids documents : List String) (metadatas : List Meta)
    (embeddings : List (List ℚ)) : List SRec × Bool :=
  upsertAux docs ids documents metadatas embeddings

/-- `SimpleStore.count` (lines 74-75). -/
def simpleCount (docs : List SRec) : Nat := docs.length

/-! ### Retriever threshold filter (src/server/retrieval.py lines 40-48) -/

/-- The loop `for i, d in enumerate(distances)` keeping indices whose
similarity `1 - d` is at least the threshold, with `n` the index of the
first element of the remaining list. -/
def thresholdIdxAux (t : ℚ) : Nat → List ℚ → List Nat
  | _, [] => []
  | n, d :: ds =>
    if t ≤ 1 - d then n :: thresholdIdxAux t (n + 1) ds
    else thresholdIdxAux t (n + 1) ds

/-- The `filtered` index list of `Retriever.query` (lines 40-44). -/
def thresholdIdx (t : ℚ) (distances : List ℚ) : List Nat :=
  thresholdIdxAux t 0 distances

/-- Lines 40-48 of retrieval.py: compute `filtered`; if it is non-empty
replace `docs`/`metas` by the selected entries, otherwise keep the full
top-k lists. -/
def retrieverSelect (docs : List String) (metas : List Meta) (distances : List ℚ) (t : ℚ) :
    List String × List Meta :=
  let filtered := thresholdIdx t distances
  if filtered.isEmpty then (docs, metas)
  else (filtered.filterMap (fun i => docs.get? i), filtered.filterMap (fun i => metas.get? i))

/-! ### `_cosine_distance` (src/server/simple_store.py lines 9-19)

Floats are idealised as real numbers; `math.sqrt` is `Real.sqrt`. -/

/-- The three running sums `num`, `da`, `db` of the loop. -/
structure CosAcc where
  num : ℝ
  da : ℝ
  db : ℝ

/-- One loop iteration: `num += x * y; da += x * x; db += y * y`. -/
def cosStep (s : CosAcc) (p : ℝ × ℝ) : CosAcc :=
  ⟨s.num + p.1 * p.2, s.da + p.1 * p.1, s.db + p.2 * p.2⟩

/-- `for x, y in zip(a, b): num += x*y; da += x*x; db += y*y` starting
from `(0.0, 0.0, 0.0)`. -/
def cosAcc (a b : List ℝ) : CosAcc :=
  (a.zip b).foldl cosStep ⟨0, 0, 0⟩

/-- `_cosine_distance(a, b)`: `1.0` when `da == 0.0 or db == 0.0`, else
`1.0 - num / (sqrt(da) * sqrt(db))`. -/
noncomputable def cosineDistance (a b : List ℝ) : ℝ :=
  let s := cosAcc a b
  if s.da = 0 ∨ s.db = 0 then 1
  else 1 - s.num / (Real.sqrt s.da * Real.sqrt s.db)

/-! ### Ingestion pipeline (src/server/ingest.py `Ingestor.ingest_paths`)

File bytes are `List Nat`; `_checksum_bytes` (a sha256 hex digest) is an
abstract function of the bytes, carried in the configuration.  The
fallible collaborator calls of one file (read, document open/extract,
embed, upsert) are the outcomes recorded in a `FileEnv`; an
`Except.error` models an exception reaching the per-file handler
(lines 271-284). -/

abbrev Bytes := List Nat

/-- The checksum index `self._index`: path → last-seen checksum
(`_load_index`/`_save_index`, lines 92-103). -/
abbrev IngestIndex := String → Option String

/-- `self._index[file_path] = checksum` (line 254). -/
def updateIdx (idx : IngestIndex) (p c : String) : IngestIndex :=
  fun q => if q = p then some c else idx q

/-- Configuration and collaborators used by the OCR decision policy
(settings `OCR_LOW_TEXT_ENABLED`, `OCR_LOW_TEXT_THRESHOLD_CHARS`) and the
OCR gate `self._vlm and s.OCR_VLM_ENABLED` (lines 168-176), plus the
abstract checksum function. -/
structure IngestCfg where
  hash : Bytes → String
  lowTextEnabled : Bool
  lowTextThreshold : Nat
  vlmEnabled : Bool

/-- The OCR trigger reason of a page (lines 166-172). -/
inductive OcrReason where
  | noTextLayer
  | lowText
deriving DecidableEq

/-- An entry of the run-level `ocr_events` list (lines 199-205 and
211-218). -/
structure OcrEvent where
  file : String
  page : Nat
  reason : OcrReason
  provider : Option String
  skipped : Bool
deriving DecidableEq

/-- Per-chunk metadata (lines 226-238). -/
structure ChunkMeta where
  sourceFile : String
  pageNumber : Nat
  chunkIndex : Nat
  docTitle : String
  checksum : String
  hasTextLayer : Bool
  vlmCorrectionApplied : Bool
  vlmProvider : Option String
  ocrTriggerReason : Option OcrReason
deriving DecidableEq

/-- A page as the extractor presents it: the native text layer
(`page.get_text("text")`) and the OCR transcription after the internal
`try`/`except` that maps provider failures to `""` (lines 180-195). -/
structure PageIn where
  nativeText : List Char
  ocrText : List Char
deriving DecidableEq

/-- What the body of the page loop produced for one page. -/
structure PageOut where
  chunks : List (List Char)
  metas : List ChunkMeta
  events : List OcrEvent
  skipped : Bool
deriving DecidableEq

/-- The fall-through of the page loop (lines 223-238): chunk `text` with
the default parameters and attach one metadata record per chunk.
`vlm_correction_applied` is `bool(trigger_reason) and bool(text)` and
`vlm_provider` is `"openai"` under the same condition (lines 234-235). -/
def keepPage (file title cks : String) (pageNum : Nat) (page : PageIn)
    (trigger : Option OcrReason) (text : List Char) (events : List OcrEvent) : PageOut :=
  let chunks := chunkText text 1000 200
  let applied : Bool := trigger.isSome && !text.isEmpty
  ⟨chunks,
   (List.range chunks.length).map (fun i =>
     ⟨file, pageNum + 1, i, title, cks, !page.nativeText.isEmpty, applied,
      if applied then some "openai" else none, trigger⟩),
   events, false⟩

/-- Lines 161-238, one page: strip the native text, compute the trigger
reason, resolve OCR (prefer non-empty VLM text; skip `no_text_layer`
pages whose OCR came back empty; keep the original text otherwise). -/
def processPage (cfg : IngestCfg) (file title cks : String) (pageNum : Nat)
    (page : PageIn) : PageOut :=
  let text0 := pyStrip page.nativeText
  let trigger : Option OcrReason :=
    if text0.isEmpty then some .noTextLayer
    else if cfg.lowTextEnabled && text0.length < cfg.lowTextThreshold then some .lowText
    else none
  match trigger with
  | none => keepPage file title cks pageNum page none text0 []
  | some r =>
    let vlmText : List Char := if cfg.vlmEnabled then page.ocrText else []
    if !(pyStrip vlmText).isEmpty then
      keepPage file title cks pageNum page (some r) (pyStrip vlmText)
        [⟨file, pageNum + 1, r, some "openai", false⟩]
    else if r = .noTextLayer then
      ⟨[], [], [⟨file, pageNum + 1, r, none, true⟩], true⟩
    else
      keepPage file title cks pageNum page (some r) text0 []

/-- The per-file environment: the outcomes of the collaborator calls
made while processing one file. -/
structure FileEnv where
  readBytes : Except String Bytes
  docTitle : String
  extract : Except String (List PageIn)
  embed : List (List Char) → Except String (List (List ℚ))
  upsert : Except String Unit

/-- `for page_num in range(len(doc))` (line 161), applied to the page
policy. -/
def pageOuts (cfg : IngestCfg) (file title cks : String) (pages : List PageIn) :
    List PageOut :=
  ((List.range pages.length).zip pages).map
    (fun pr => processPage cfg file title cks pr.1 pr.2)

/-- What processing one file contributes to the run: the updated index
and the deltas of the run counters and lists. -/
structure FileReport where
  idx : IngestIndex
  filesProcessed : Nat
  pagesProcessed : Nat
  chunksUpserted : Nat
  embedCalls : Nat
  storeWrites : Nat
  errors : List (String × String)
  ocrEvents : List OcrEvent

/-- The body of `for file_path in target_files` (lines 131-284): read
and checksum the bytes, skip when the index already holds this checksum,
otherwise extract pages, run the page policy, and — only when at least
one chunk was produced — embed the batch, upsert it, and then advance
the index.  Any error is caught per file and leaves the index as it
was.  `storeWrites` counts records written by a completed upsert. -/
def processFile (cfg : IngestCfg) (env : FileEnv) (path : String) (idx : IngestIndex) :
    FileReport :=
  match env.readBytes with
  | .error e => ⟨idx, 0, 0, 0, 0, 0, [(path, e)], []⟩
  | .ok bytes =>
    let cks := cfg.hash bytes
    if idx path = some cks then ⟨idx, 0, 0, 0, 0, 0, [], []⟩
    else
      match env.extract with
      | .error e => ⟨idx, 0, 0, 0, 0, 0, [(path, e)], []⟩
      | .ok pages =>
        let outs := pageOuts cfg path env.docTitle cks pages
        let chunks := (outs.map PageOut.chunks).flatten
        let evs := (outs.map PageOut.events).flatten
        if chunks.isEmpty then ⟨idx, 0, 0, 0, 0, 0, [], evs⟩
        else
          match env.embed chunks with
          | .error e => ⟨idx, 0, 0, 0, 1, 0, [(path, e)], evs⟩
          | .ok _ =>
            match env.upsert with
            | .error e => ⟨idx, 0, 0, 0, 1, 0, [(path, e)], evs⟩
            | .ok _ =>
              ⟨updateIdx idx path cks, 1, pages.length, chunks.length, 1,
               chunks.length, [], evs⟩

/-- Whether an `Except` outcome is a success. -/
def exOk {ε α : Type} : Except ε α → Bool
  | .ok _ => true
  | .error _ => false

/-- The chunk batch a file would produce when its read and extract
succeed. -/
def fileChunks (cfg : IngestCfg) (env : FileEnv) (path : String) : List (List Char) :=
  match env.readBytes, env.extract with
  | .ok bytes, .ok pages =>
    ((pageOuts cfg path env.docTitle (cfg.hash bytes) pages).map PageOut.chunks).flatten
  | _, _ => []

/-- Whether every step of processing this file succeeds and produces at
least one chunk (the success path of lines 240-255). -/
def fileSucceeds (cfg : IngestCfg) (env : FileEnv) (path : String) : Bool :=
  match env.readBytes, env.extract with
  | .ok _, .ok _ =>
    let chunks := fileChunks cfg env path
    !chunks.isEmpty && exOk (env.embed chunks) && exOk env.upsert
  | _, _ => false

/-- The checksum the index would be advanced to for this file. -/
def fileHash (cfg : IngestCfg) (env : FileEnv) : Option String :=
  match env.readBytes with
  | .ok bytes => some (cfg.hash bytes)
  | .error _ => none

/-- Accumulated run state of `ingest_paths` (lines 105-311). -/
structure RunState where
  idx : IngestIndex
  filesProcessed : Nat
  pagesProcessed : Nat
  chunksUpserted : Nat
  embedCalls : Nat
  storeWrites : Nat
  errors : List (String × String)
  ocrEvents : List OcrEvent

/-- One iteration of the file loop, merging a `FileReport` into the run
state. -/
def runStep (cfg : IngestCfg) (env : String → FileEnv) (st : RunState) (path : String) :
    RunState :=
  let r := processFile cfg (env path) path st.idx
  ⟨r.idx, st.filesProcessed + r.filesProcessed, st.pagesProcessed + r.pagesProcessed,
   st.chunksUpserted + r.chunksUpserted, st.embedCalls + r.embedCalls,
   st.storeWrites + r.storeWrites, st.errors ++ r.errors, st.ocrEvents ++ r.ocrEvents⟩

/-- The state at the start of a run (counters zero, lines 108-112). -/
def initRun (idx : IngestIndex) : RunState := ⟨idx, 0, 0, 0, 0, 0, [], []⟩

/-- `ingest_paths` over an already-resolved target file list. -/
def ingestPaths (cfg : IngestCfg) (env : String → FileEnv) (files : List String)
    (idx : IngestIndex) : RunState :=
  files.foldl (runStep cfg env) (initRun idx)

/-- The `IngestResult` dataclass (ingest.py lines 70-76): exactly these
five fields. -/
structure IngestResult where
  files_processed : Nat
  pages_processed : Nat
  chunks_upserted : Nat
  errors : List (String × String)
  ocr_events : List OcrEvent

/-- The construction of the returned value (lines 305-311). -/
def mkIngestResult (st : RunState) : IngestResult :=
  ⟨st.filesProcessed, st.pagesProcessed, st.chunksUpserted, st.errors, st.ocrEvents⟩

/-- The field names of the `IngestResult` dataclass (ingest.py lines
70-76). -/
def ingestResultFields : List String :=
  ["files_processed", "pages_processed", "chunks_upserted", "errors", "ocr_events"]

/-- The attributes the `/ingest` handler reads from the returned
`IngestResult` when building its response (app.py lines 113-123). -/
def appIngestResponseFields : List String :=
  ["files_processed", "files_skipped", "files_found", "pages_processed",
   "chunks_upserted", "errors", "ocr_events", "processed_list", "skipped_list"]

/-! ## Claim C3: SimpleStore upsert behaviour -/

/-- The records a batch of aligned argument lists gives rise to. -/
def zipRecs : List String → List String → List Meta → List (List ℚ) → List SRec
  | i :: is, d :: ds, m :: ms, e :: es => ⟨i, d, m, e⟩ :: zipRecs is ds ms es
  | _, _, _, _ => []

theorem upsertAux_eq (ids : List String) :
    ∀ (ds : List String) (ms : List Meta) (es : List (List ℚ)) (docs : List SRec),
      ids.length = ds.length → ids.length = ms.length → ids.length = es.length →
      upsertAux docs ids ds ms es = (docs ++ zipRecs ids ds ms es, true) := by
  induction ids with
  | nil =>
    intro ds ms es docs h1 h2 h3
    cases ds <;> cases ms <;> cases es <;> simp_all [upsertAux, zipRecs]
  | cons i is ih =>
    intro ds ms es docs h1 h2 h3
    cases ds with
    | nil => simp at h1
    | cons d ds =>
      cases ms with
      | nil => simp at h2
      | cons m ms =>
        cases es with
        | nil => simp at h3
        | cons e es =>
          simp only [List.length_cons, Nat.succ.injEq] at h1 h2 h3
          simp only [upsertAux, zipRecs]
          have h := ih ds ms es (docs ++ [(⟨i, d, m, e⟩ : SRec)]) h1 h2 h3
          rw [h]
          simp

/-- One upsert call with its four aligned argument lists. -/
structure Batch where
  ids : List String
  documents : List String
  metadatas : List Meta
  embeddings : List (List ℚ)

/-- The argument lists of a batch have the same length (Python would
raise `IndexError` otherwise). -/
def alignedBatch (b : Batch) : Prop :=
  b.ids.length = b.documents.length ∧ b.ids.length = b.metadatas.length ∧
    b.ids.length = b.embeddings.length

instance (b : Batch) : Decidable (alignedBatch b) := by
  unfold alignedBatch
  exact instDecidableAnd

/-- A sequence of `upsert` calls against the in-memory store. -/
def runUpserts (docs : List SRec) : List Batch → List SRec
  | [] => docs
  | b :: bs => runUpserts (simpleUpsert docs b.ids b.documents b.metadatas b.embeddings).1 bs

theorem runUpserts_eq (bs : List Batch) :
    ∀ docs : List SRec, (∀ b ∈ bs, alignedBatch b) →
      runUpserts docs bs =
        docs ++ (bs.map (fun b => zipRecs b.ids b.documents b.metadatas b.embeddings)).flatten := by
  induction bs with
  | nil => intro docs _; simp [runUpserts]
  | cons b bs ih =>
    intro docs hal
    have hb := hal b (List.mem_cons_self b bs)
    obtain ⟨h1, h2, h3⟩ := hb
    simp only [runUpserts, simpleUpsert]
    rw [upsertAux_eq b.ids b.documents b.metadatas b.embeddings docs h1 h2 h3]
    rw [ih _ (fun x hx => hal x (List.mem_cons_of_mem b hx))]
    simp

theorem zipRecs_length (ids : List String) :
    ∀ (ds : List String) (ms : List Meta) (es : List (List ℚ)),
      ids.length = ds.length → ids.length = ms.length → ids.length = es.length →
      (zipRecs ids ds ms es).length = ids.length := by
  induction ids with
  | nil => intro ds ms es _ _ _; simp [zipRecs]
  | cons i is ih =>
    intro ds ms es h1 h2 h3
    cases ds with
    | nil => simp at h1
    | cons d ds =>
      cases ms with
      | nil => simp at h2
      | cons m ms =>
        cases es with
        | nil => simp at h3
        | cons e es =>
          simp only [List.length_cons, Nat.succ.injEq] at h1 h2 h3
          simp [zipRecs, ih ds ms es h1 h2 h3]

/-- Store states for the C3 counterexample: the id `"a"` is upserted
twice. -/
def c3Store1 : List SRec := (simpleUpsert [] ["a"] ["d1"] [[]] [[1]]).1

def c3Store2 : List SRec := (simpleUpsert c3Store1 ["a"] ["d2"] [[]] [[1]]).1

/-- C3 counterexample: upserting an id that already exists in the
fallback store does not overwrite the existing record — after upserting
id `"a"` twice the store holds two records with the same id, `count()`
is `2` (not the number of distinct ids, `1`), and the stored ids are not
pairwise distinct. -/
theorem upsert_existing_id_appends_counterexample :
    c3Store2.map SRec.id = ["a", "a"] ∧ simpleCount c3Store2 = 2 ∧
      ¬ (c3Store2.map SRec.id).Nodup := by
  refine ⟨rfl, rfl, ?_⟩
  decide

/-- C3 (amended): `SimpleStore.upsert` appends one record per supplied
id and never overwrites: after any sequence of aligned upsert calls the
in-memory record list is the initial list followed by all upserted
records in call order, and `count()` equals the initial count plus the
total number of upserted ids — records with duplicate ids accumulate. -/
theorem upsert_append_only (docs : List SRec) (bs : List Batch)
    (hal : ∀ b ∈ bs, alignedBatch b) :
    runUpserts docs bs =
      docs ++ (bs.map (fun b => zipRecs b.ids b.documents b.metadatas b.embeddings)).flatten ∧
    simpleCount (runUpserts docs bs) =
      simpleCount docs + (bs.map (fun b => b.ids.length)).sum := by
  refine ⟨runUpserts_eq bs docs hal, ?_⟩
  rw [runUpserts_eq bs docs hal]
  have hmap : bs.map (fun b => (zipRecs b.ids b.documents b.metadatas b.embeddings).length)
      = bs.map (fun b => b.ids.length) := by
    apply List.map_congr_left
    intro b hb
    obtain ⟨h1, h2, h3⟩ := hal b hb
    exact zipRecs_length b.ids b.documents b.metadatas b.embeddings h1 h2 h3
  simp only [simpleCount, List.length_append, List.length_flatten, List.map_map,
    Function.comp_def]
  rw [hmap]


/-- Concrete aligned batches for the C3 witness. -/
def c3WB1 : Batch := ⟨["a"], ["d1"], [[]], [[1]]⟩

def c3WB2 : Batch := ⟨["a"], ["d2"], [[]], [[1]]⟩

/-- Witness for the amended C3 theorem at two concrete batches with the
same id. -/
theorem upsert_append_only_witness :
    simpleCount (runUpserts [] [c3WB1, c3WB2]) = 2 := by
  have h := (upsert_append_only [] [c3WB1, c3WB2] (by decide)).2
  rw [h]
  decide

/-! ## Claim C10: totality of the cosine distance -/

theorem cosAcc_foldl_mono (l : List (ℝ × ℝ)) :
    ∀ s : CosAcc, s.da ≤ (l.foldl cosStep s).da ∧ s.db ≤ (l.foldl cosStep s).db := by
  induction l with
  | nil => intro s; exact ⟨le_refl _, le_refl _⟩
  | cons p ps ih =>
    intro s
    rw [List.foldl_cons]
    constructor
    · exact le_trans (le_add_of_nonneg_right (mul_self_nonneg p.1)) (ih (cosStep s p)).1
    · exact le_trans (le_add_of_nonneg_right (mul_self_nonneg p.2)) (ih (cosStep s p)).2

theorem cosAcc_nonneg (a b : List ℝ) : 0 ≤ (cosAcc a b).da ∧ 0 ≤ (cosAcc a b).db :=
  cosAcc_foldl_mono (a.zip b) ⟨0, 0, 0⟩

/-- C10: `_cosine_distance` is total: when either accumulated magnitude
is zero (in particular when either input list is empty) it returns
exactly 1 without dividing; otherwise the denominator
`sqrt(da) * sqrt(db)` is non-zero and the result is one minus the
cosine of the two (zipped) vectors. -/
theorem cosine_distance_total (a b : List ℝ) :
    ((a = [] ∨ b = []) → cosineDistance a b = 1) ∧
    ((cosAcc a b).da = 0 ∨ (cosAcc a b).db = 0 → cosineDistance a b = 1) ∧
    ((cosAcc a b).da ≠ 0 → (cosAcc a b).db ≠ 0 →
      Real.sqrt (cosAcc a b).da * Real.sqrt (cosAcc a b).db ≠ 0 ∧
      cosineDistance a b =
        1 - (cosAcc a b).num / (Real.sqrt (cosAcc a b).da * Real.sqrt (cosAcc a b).db)) := by
  have hguard : (cosAcc a b).da = 0 ∨ (cosAcc a b).db = 0 → cosineDistance a b = 1 := by
    intro h
    simp only [cosineDistance]
    rw [if_pos h]
  refine ⟨?_, hguard, ?_⟩
  · rintro (ha | hb)
    · apply hguard
      left
      rw [ha]
      rfl
    · apply hguard
      left
      simp [cosAcc, hb]
  · intro hda hdb
    have h0 := cosAcc_nonneg a b
    have hda' : 0 < (cosAcc a b).da := lt_of_le_of_ne h0.1 (Ne.symm hda)
    have hdb' : 0 < (cosAcc a b).db := lt_of_le_of_ne h0.2 (Ne.symm hdb)
    have hsa : 0 < Real.sqrt (cosAcc a b).da := Real.sqrt_pos.mpr hda'
    have hsb : 0 < Real.sqrt (cosAcc a b).db := Real.sqrt_pos.mpr hdb'
    refine ⟨ne_of_gt (mul_pos hsa hsb), ?_⟩
    simp only [cosineDistance]
    rw [if_neg (not_or.mpr ⟨hda, hdb⟩)]

/-- Witness for C10 at a concrete degenerate input: the zero vector
against `[1]` yields distance exactly 1. -/
theorem cosine_distance_total_witness : cosineDistance [(0 : ℝ)] [1] = 1 :=
  (cosine_distance_total [(0 : ℝ)] [1]).2.1 (Or.inl (by simp [cosAcc, cosStep]))

/-! ## Claim C7: low-text pages are never skipped -/

/-- C7: a page is skipped iff its native text strips to empty AND the
effective OCR text (empty unless a VLM is configured and enabled)
strips to empty; and every page with non-empty native text whose OCR
produced nothing — in particular a `low_text` page whose OCR call
failed — is kept and its original native text is chunked. -/
theorem ocr_low_text_page_kept (cfg : IngestCfg) (file title cks : String)
    (pageNum : Nat) (page : PageIn) :
    ((processPage cfg file title cks pageNum page).skipped = true ↔
      (pyStrip page.nativeText = [] ∧
        pyStrip (if cfg.vlmEnabled then page.ocrText else []) = [])) ∧
    (pyStrip page.nativeText ≠ [] →
      pyStrip (if cfg.vlmEnabled then page.ocrText else []) = [] →
      (processPage cfg file title cks pageNum page).skipped = false ∧
      (processPage cfg file title cks pageNum page).chunks =
        chunkText (pyStrip page.nativeText) 1000 200) := by
  by_cases h0 : (pyStrip page.nativeText).isEmpty
  · have h0' : pyStrip page.nativeText = [] := by
      simpa [List.isEmpty_iff] using h0
    by_cases hv : (pyStrip (if cfg.vlmEnabled then page.ocrText else [])).isEmpty
    · have hv' : pyStrip (if cfg.vlmEnabled then page.ocrText else []) = [] := by
        simpa [List.isEmpty_iff] using hv
      constructor
      · simp [processPage, h0, hv, h0', hv']
      · intro hne
        exact absurd h0' hne
    · have hv' : pyStrip (if cfg.vlmEnabled then page.ocrText else []) ≠ [] := by
        simpa [List.isEmpty_iff] using hv
      constructor
      · simp [processPage, keepPage, h0, hv, h0', hv']
      · intro hne
        exact absurd h0' hne
  · have h0' : pyStrip page.nativeText ≠ [] := by
      simpa [List.isEmpty_iff] using h0
    by_cases hlow : cfg.lowTextEnabled && (pyStrip page.nativeText).length < cfg.lowTextThreshold
    · by_cases hv : (pyStrip (if cfg.vlmEnabled then page.ocrText else [])).isEmpty
      · have hv' : pyStrip (if cfg.vlmEnabled then page.ocrText else []) = [] := by
          simpa [List.isEmpty_iff] using hv
        constructor
        · simp [processPage, keepPage, h0, hlow, hv, h0']
        · intro _ _
          simp [processPage, keepPage, h0, hlow, hv]
      · have hv' : pyStrip (if cfg.vlmEnabled then page.ocrText else []) ≠ [] := by
          simpa [List.isEmpty_iff] using hv
        constructor
        · simp [processPage, keepPage, h0, hlow, hv, h0']
        · intro _ hveq
          exact absurd hveq hv'
    · constructor
      · simp [processPage, keepPage, h0, hlow, h0']
      · intro _ _
        simp [processPage, keepPage, h0, hlow]

/-- Witness for C7 at a concrete `low_text` page whose OCR returned
nothing: the page is kept and its native text is chunked. -/
theorem ocr_low_text_page_kept_witness :
    (processPage ⟨fun _ => "h", true, 200, true⟩ "f.pdf" "t" "c" 0
        ⟨"Hi.".toList, []⟩).skipped = false ∧
    (processPage ⟨fun _ => "h", true, 200, true⟩ "f.pdf" "t" "c" 0
        ⟨"Hi.".toList, []⟩).chunks = chunkText (pyStrip "Hi.".toList) 1000 200 :=
  (ocr_low_text_page_kept ⟨fun _ => "h", true, 200, true⟩ "f.pdf" "t" "c" 0
      ⟨"Hi.".toList, []⟩).2 (by decide) (by decide)

/-! ## Claim C4: retrieval threshold filter and fallback -/

theorem thresholdIdxAux_ge (t : ℚ) :
    ∀ (ds : List ℚ) (n i : Nat), i ∈ thresholdIdxAux t n ds → n ≤ i := by
  intro ds
  induction ds with
  | nil => intro n i h; simp [thresholdIdxAux] at h
  | cons d rest ih =>
    intro n i h
    simp only [thresholdIdxAux] at h
    by_cases hc : t ≤ 1 - d
    · rw [if_pos hc] at h
      rcases List.mem_cons.mp h with h1 | h2
      · exact le_of_eq h1.symm
      · exact le_trans (Nat.le_succ n) (ih (n + 1) i h2)
    · rw [if_neg hc] at h
      exact le_trans (Nat.le_succ n) (ih (n + 1) i h)

theorem thresholdIdxAux_select {α : Type} (t : ℚ) (docs : List α) :
    ∀ (ds : List ℚ) (n : Nat),
      (thresholdIdxAux t n ds).filterMap (fun i => docs.get? i) =
        (((docs.drop n).zip ds).filter (fun p => decide (t ≤ 1 - p.2))).map Prod.fst := by
  intro ds
  induction ds with
  | nil => intro n; simp [thresholdIdxAux]
  | cons d rest ih =>
    intro n
    by_cases hn : n < docs.length
    · have hdrop : docs.drop n = docs[n] :: docs.drop (n + 1) :=
        List.drop_eq_getElem_cons hn
      have hget : docs.get? n = some docs[n] := by
        rw [List.get?_eq_getElem?]
        exact List.getElem?_eq_getElem hn
      by_cases hc : t ≤ 1 - d
      · rw [hdrop]
        simp only [thresholdIdxAux, if_pos hc, List.filterMap_cons, hget,
          List.zip_cons_cons, List.filter_cons]
        simp [hc]
        have ih' := ih (n + 1)
        simp only [List.get?_eq_getElem?] at ih'
        exact ih'
      · rw [hdrop]
        simp only [thresholdIdxAux, if_neg hc, List.zip_cons_cons, List.filter_cons]
        simp only [decide_eq_false hc, Bool.false_eq_true, if_false]
        exact ih (n + 1)
    · have hdrop : docs.drop n = [] := List.drop_eq_nil_of_le (le_of_not_lt hn)
      rw [hdrop]
      have hz : (([] : List α).zip (d :: rest)) = [] := rfl
      rw [hz]
      simp only [List.filter_nil, List.map_nil]
      rw [List.filterMap_eq_nil_iff]
      intro i hi
      have hni := thresholdIdxAux_ge t (d :: rest) n i hi
      rw [List.get?_eq_getElem?]
      exact List.getElem?_eq_none (le_trans (le_of_not_lt hn) hni)

theorem thresholdIdxAux_lt (t : ℚ) :
    ∀ (ds : List ℚ) (n i : Nat), i ∈ thresholdIdxAux t n ds → i < n + ds.length := by
  intro ds
  induction ds with
  | nil => intro n i h; simp [thresholdIdxAux] at h
  | cons d rest ih =>
    intro n i h
    simp only [thresholdIdxAux] at h
    by_cases hc : t ≤ 1 - d
    · rw [if_pos hc] at h
      rcases List.mem_cons.mp h with h1 | h2
      · simp [h1]
      · have := ih (n + 1) i h2
        simp only [List.length_cons]
        omega
    · rw [if_neg hc] at h
      have := ih (n + 1) i h
      simp only [List.length_cons]
      omega

theorem thresholdIdx_nil_of_select_nil {α : Type} (t : ℚ) (docs : List α)
    (ds : List ℚ) (hlen : docs.length = ds.length)
    (h : (thresholdIdx t ds).filterMap (fun i => docs.get? i) = []) :
    thresholdIdx t ds = [] := by
  cases hf : thresholdIdx t ds with
  | nil => rfl
  | cons i rest =>
    exfalso
    have hi : i ∈ thresholdIdx t ds := by rw [hf]; exact List.mem_cons_self i rest
    have hilt : i < docs.length := by
      rw [hlen]
      have := thresholdIdxAux_lt t ds 0 i hi
      omega
    have hgi : docs.get? i = some (docs.get ⟨i, hilt⟩) := List.get?_eq_get hilt
    rw [hf, List.filterMap_cons, hgi] at h
    simp at h

/-- C4: the Retriever keeps exactly the records whose similarity
`1 - distance` is at least the threshold; when that filtered set is
non-empty it replaces the top-k lists, when the filter removes every
record the full unfiltered top-k lists are kept, and the selected
context is empty only when the store itself returned no candidates. -/
theorem retriever_threshold_fallback (docs : List String) (metas : List Meta)
    (ds : List ℚ) (t : ℚ) (hd : docs.length = ds.length)
    (hm : metas.length = ds.length) :
    ((((docs.zip ds).filter (fun p => decide (t ≤ 1 - p.2))).map Prod.fst) ≠ [] →
      retrieverSelect docs metas ds t =
        ((((docs.zip ds).filter (fun p => decide (t ≤ 1 - p.2))).map Prod.fst),
         (((metas.zip ds).filter (fun p => decide (t ≤ 1 - p.2))).map Prod.fst))) ∧
    ((((docs.zip ds).filter (fun p => decide (t ≤ 1 - p.2))).map Prod.fst) = [] →
      retrieverSelect docs metas ds t = (docs, metas)) ∧
    ((retrieverSelect docs metas ds t).1 = [] → docs = []) := by
  have hsd := thresholdIdxAux_select t docs ds 0
  have hsm := thresholdIdxAux_select t metas ds 0
  rw [List.drop_zero] at hsd hsm
  refine ⟨?_, ?_, ?_⟩
  · intro hne
    have hfne : thresholdIdx t ds ≠ [] := by
      intro hnil
      apply hne
      rw [← hsd]
      unfold thresholdIdx at hnil
      rw [hnil]
      rfl
    have hif : (thresholdIdx t ds).isEmpty = false := by
      cases hx : thresholdIdx t ds with
      | nil => exact absurd hx hfne
      | cons a l => rfl
    simp only [retrieverSelect, hif, Bool.false_eq_true, if_false]
    unfold thresholdIdx
    rw [hsd, hsm]
  · intro hnil
    have hf : thresholdIdx t ds = [] := by
      apply thresholdIdx_nil_of_select_nil t docs ds hd
      unfold thresholdIdx
      rw [hsd]
      exact hnil
    have hemp : (thresholdIdx t ds).isEmpty = true := by rw [hf]; rfl
    simp only [retrieverSelect, hemp, if_true]
  · intro h1
    by_cases hf : (thresholdIdx t ds).isEmpty
    · simp only [retrieverSelect, hf, if_true] at h1
      exact h1
    · exfalso
      cases hx : thresholdIdx t ds with
      | nil => rw [hx] at hf; exact hf rfl
      | cons i rest =>
        have hmem : i ∈ thresholdIdx t ds := by
          rw [hx]; exact List.mem_cons_self i rest
        have hilt : i < docs.length := by
          rw [hd]
          have := thresholdIdxAux_lt t ds 0 i hmem
          omega
        have hgi : docs.get? i = some (docs.get ⟨i, hilt⟩) := List.get?_eq_get hilt
        have hif : (thresholdIdx t ds).isEmpty = false := by rw [hx]; rfl
        simp only [retrieverSelect, hif, Bool.false_eq_true, if_false] at h1
        rw [hx, List.filterMap_cons, hgi] at h1
        simp at h1

/-- Witness for C4 at a concrete query: distances `[-1, 1, 2]` with
threshold `1` give similarities `[2, 0, -1]`, so exactly the first
record is kept and used. -/
theorem retriever_threshold_fallback_witness :
    retrieverSelect ["a", "b", "c"] [[("k", "a")], [("k", "b")], [("k", "c")]]
      [-1, 1, 2] 1 = (["a"], [[("k", "a")]]) := by
  have e1 : ((1 : ℚ) ≤ 1 - (-1)) := by norm_num
  have e2 : ¬ ((1 : ℚ) ≤ 1 - 1) := by norm_num
  have e3 : ¬ ((1 : ℚ) ≤ 1 - 2) := by norm_num
  have hkeep : (((["a", "b", "c"].zip [(-1 : ℚ), 1, 2]).filter
      (fun p => decide ((1 : ℚ) ≤ 1 - p.2))).map Prod.fst) = ["a"] := by
    simp [List.zip_cons_cons, List.filter_cons, e1, e2, e3]
  have hkeepm : ((([[("k", "a")], [("k", "b")], [("k", "c")]].zip [(-1 : ℚ), 1, 2]).filter
      (fun p => decide ((1 : ℚ) ≤ 1 - p.2))).map Prod.fst) = [[("k", "a")]] := by
    simp [List.zip_cons_cons, List.filter_cons, e1, e2, e3]
  have h := (retriever_threshold_fallback ["a", "b", "c"]
      [[("k", "a")], [("k", "b")], [("k", "c")]] [-1, 1, 2] 1
      (by decide) (by decide)).1 (by rw [hkeep]; simp)
  rw [h, hkeep, hkeepm]

/-! ## Claims C1 and C2: checksum-index discipline of the file loop -/

theorem fileSucceeds_read (cfg : IngestCfg) (env : FileEnv) (path : String)
    (h : fileSucceeds cfg env path = true) : ∃ b, env.readBytes = Except.ok b := by
  unfold fileSucceeds at h
  cases hr : env.readBytes with
  | ok b => exact ⟨b, rfl⟩
  | error e => rw [hr] at h; simp at h

theorem processFile_read_error (cfg : IngestCfg) (env : FileEnv) (path : String)
    (idx : IngestIndex) (e : String) (h : env.readBytes = Except.error e) :
    processFile cfg env path idx = ⟨idx, 0, 0, 0, 0, 0, [(path, e)], []⟩ := by
  simp [processFile, h]

theorem processFile_skip (cfg : IngestCfg) (env : FileEnv) (path : String)
    (idx : IngestIndex) (b : Bytes) (hb : env.readBytes = Except.ok b)
    (hskip : idx path = some (cfg.hash b)) :
    processFile cfg env path idx = ⟨idx, 0, 0, 0, 0, 0, [], []⟩ := by
  simp [processFile, hb, hskip]

theorem processFile_not_succ (cfg : IngestCfg) (env : FileEnv) (path : String)
    (idx : IngestIndex) (h : fileSucceeds cfg env path = false) :
    (processFile cfg env path idx).idx = idx ∧
    (processFile cfg env path idx).filesProcessed = 0 ∧
    (processFile cfg env path idx).storeWrites = 0 := by
  cases hr : env.readBytes with
  | error e => simp [processFile, hr]
  | ok b =>
    by_cases hskip : idx path = some (cfg.hash b)
    · simp [processFile, hr, hskip]
    · cases hx : env.extract with
      | error e => simp [processFile, hr, hskip, hx]
      | ok pages =>
        unfold fileSucceeds at h
        rw [hr, hx] at h
        unfold fileChunks at h
        rw [hr, hx] at h
        by_cases hS : (((pageOuts cfg path env.docTitle (cfg.hash b) pages).map
            PageOut.chunks).flatten).isEmpty
        · refine ⟨?_, ?_, ?_⟩ <;> simp [processFile, hr, hskip, hx, hS]
        · rw [Bool.not_eq_true] at hS
          simp only [hS, Bool.not_false, Bool.true_and] at h
          rcases Bool.and_eq_false_iff.mp h with he | hu
          · cases hemb : env.embed (((pageOuts cfg path env.docTitle (cfg.hash b) pages).map
                PageOut.chunks).flatten) with
            | error e2 =>
              refine ⟨?_, ?_, ?_⟩ <;> simp [processFile, hr, hskip, hx, hS, hemb]
            | ok embs => rw [hemb] at he; simp [exOk] at he
          · cases hup : env.upsert with
            | error e2 =>
              cases hemb : env.embed (((pageOuts cfg path env.docTitle (cfg.hash b) pages).map
                  PageOut.chunks).flatten) with
              | error e3 =>
                refine ⟨?_, ?_, ?_⟩ <;> simp [processFile, hr, hskip, hx, hS, hemb]
              | ok embs =>
                refine ⟨?_, ?_, ?_⟩ <;> simp [processFile, hr, hskip, hx, hS, hemb, hup]
            | ok u => rw [hup] at hu; simp [exOk] at hu

theorem processFile_succ (cfg : IngestCfg) (env : FileEnv) (path : String)
    (idx : IngestIndex) (b : Bytes) (hb : env.readBytes = Except.ok b)
    (hskip : idx path ≠ some (cfg.hash b)) (h : fileSucceeds cfg env path = true) :
    (processFile cfg env path idx).idx = updateIdx idx path (cfg.hash b) ∧
    (processFile cfg env path idx).filesProcessed = 1 := by
  cases hx : env.extract with
  | error e =>
    unfold fileSucceeds at h
    rw [hb, hx] at h
    simp at h
  | ok pages =>
    unfold fileSucceeds at h
    rw [hb, hx] at h
    unfold fileChunks at h
    rw [hb, hx] at h
    simp only [Bool.and_eq_true] at h
    obtain ⟨⟨hS, hemb⟩, hup⟩ := h
    have hS' : (((pageOuts cfg path env.docTitle (cfg.hash b) pages).map
        PageOut.chunks).flatten).isEmpty = false := by
      simpa using hS
    cases he : env.embed (((pageOuts cfg path env.docTitle (cfg.hash b) pages).map
        PageOut.chunks).flatten) with
    | error e => rw [he] at hemb; simp [exOk] at hemb
    | ok embs =>
      cases hu : env.upsert with
      | error e => rw [hu] at hup; simp [exOk] at hup
      | ok u =>
        constructor <;> simp [processFile, hb, hskip, hx, hS', he, hu]

theorem processFile_other_idx (cfg : IngestCfg) (env : FileEnv) (path : String)
    (idx : IngestIndex) (q : String) (hq : q ≠ path) :
    (processFile cfg env path idx).idx q = idx q := by
  cases hr : env.readBytes with
  | error e => simp [processFile, hr]
  | ok b =>
    by_cases hskip : idx path = some (cfg.hash b)
    · simp [processFile, hr, hskip]
    · cases hx : env.extract with
      | error e => simp [processFile, hr, hskip, hx]
      | ok pages =>
        by_cases hS : (((pageOuts cfg path env.docTitle (cfg.hash b) pages).map
            PageOut.chunks).flatten).isEmpty
        · simp [processFile, hr, hskip, hx, hS]
        · rw [Bool.not_eq_true] at hS
          cases he : env.embed (((pageOuts cfg path env.docTitle (cfg.hash b) pages).map
              PageOut.chunks).flatten) with
          | error e => simp [processFile, hr, hskip, hx, hS, he]
          | ok embs =>
            cases hu : env.upsert with
            | error e => simp [processFile, hr, hskip, hx, hS, he, hu]
            | ok u => simp [processFile, hr, hskip, hx, hS, he, hu, updateIdx, hq]

theorem foldl_idx_keep (cfg : IngestCfg) (env : String → FileEnv) (p : String) :
    ∀ (files : List String) (st : RunState),
      st.idx p = fileHash cfg (env p) →
      (files.foldl (runStep cfg env) st).idx p = fileHash cfg (env p) := by
  intro files
  induction files with
  | nil => intro st h; exact h
  | cons f fs ih =>
    intro st h
    rw [List.foldl_cons]
    apply ih
    by_cases hfp : p = f
    · subst hfp
      cases hfh : fileHash cfg (env p) with
      | none =>
        unfold fileHash at hfh
        cases hb : (env p).readBytes with
        | ok b => rw [hb] at hfh; simp at hfh
        | error e =>
          show (processFile cfg (env p) p st.idx).idx p = _
          rw [processFile_read_error cfg (env p) p st.idx e hb]
          show st.idx p = none
          rw [h]
          unfold fileHash
          rw [hb]
      | some c =>
        unfold fileHash at hfh
        cases hb : (env p).readBytes with
        | error e => rw [hb] at hfh; simp at hfh
        | ok b =>
          rw [hb] at hfh
          simp only [Option.some.injEq] at hfh
          have hskip : st.idx p = some (cfg.hash b) := by
            rw [h]
            unfold fileHash
            rw [hb]
          show (processFile cfg (env p) p st.idx).idx p = _
          rw [processFile_skip cfg (env p) p st.idx b hb hskip]
          show st.idx p = some c
          rw [hskip, hfh]
    · show (processFile cfg (env f) f st.idx).idx p = _
      rw [processFile_other_idx cfg (env f) f st.idx p hfp]
      exact h

theorem foldl_idx_success (cfg : IngestCfg) (env : String → FileEnv) :
    ∀ (files : List String) (st : RunState) (p : String), p ∈ files →
      fileSucceeds cfg (env p) p = true →
      (files.foldl (runStep cfg env) st).idx p = fileHash cfg (env p) := by
  intro files
  induction files with
  | nil => intro st p hp; intro _; simp at hp
  | cons f fs ih =>
    intro st p hp hs
    rw [List.foldl_cons]
    rcases List.mem_cons.mp hp with h1 | h2
    · subst h1
      apply foldl_idx_keep
      obtain ⟨b, hb⟩ := fileSucceeds_read cfg (env p) p hs
      have hfh : fileHash cfg (env p) = some (cfg.hash b) := by
        unfold fileHash; rw [hb]
      by_cases hskip : st.idx p = some (cfg.hash b)
      · show (processFile cfg (env p) p st.idx).idx p = _
        rw [processFile_skip cfg (env p) p st.idx b hb hskip]
        show st.idx p = fileHash cfg (env p)
        rw [hskip, hfh]
      · have hsucc := processFile_succ cfg (env p) p st.idx b hb hskip hs
        show (processFile cfg (env p) p st.idx).idx p = _
        rw [hsucc.1, hfh]
        simp [updateIdx]
    · exact ih _ p h2 hs

theorem foldl_count_zero (cfg : IngestCfg) (env : String → FileEnv) :
    ∀ (files : List String) (st : RunState),
      (∀ p ∈ files, fileSucceeds cfg (env p) p = true → st.idx p = fileHash cfg (env p)) →
      (files.foldl (runStep cfg env) st).filesProcessed = st.filesProcessed ∧
      (files.foldl (runStep cfg env) st).storeWrites = st.storeWrites := by
  intro files
  induction files with
  | nil => intro st _; exact ⟨rfl, rfl⟩
  | cons f fs ih =>
    intro st h
    rw [List.foldl_cons]
    have hstep : (runStep cfg env st f).idx = st.idx ∧
        (runStep cfg env st f).filesProcessed = st.filesProcessed ∧
        (runStep cfg env st f).storeWrites = st.storeWrites := by
      cases hs : fileSucceeds cfg (env f) f with
      | true =>
        have hidx := h f (List.mem_cons_self f fs) hs
        obtain ⟨b, hb⟩ := fileSucceeds_read cfg (env f) f hs
        have hskip : st.idx f = some (cfg.hash b) := by
          rw [hidx]
          unfold fileHash
          rw [hb]
        have hpf := processFile_skip cfg (env f) f st.idx b hb hskip
        refine ⟨?_, ?_, ?_⟩ <;> simp [runStep, hpf]
      | false =>
        have hpf := processFile_not_succ cfg (env f) f st.idx hs
        refine ⟨?_, ?_, ?_⟩ <;> simp [runStep, hpf.1, hpf.2.1, hpf.2.2]
    have hinv : ∀ p ∈ fs, fileSucceeds cfg (env p) p = true →
        (runStep cfg env st f).idx p = fileHash cfg (env p) := by
      intro p hp hs
      rw [hstep.1]
      exact h p (List.mem_cons_of_mem f hp) hs
    have hrec := ih (runStep cfg env st f) hinv
    exact ⟨by rw [hrec.1, hstep.2.1], by rw [hrec.2, hstep.2.2]⟩

theorem foldl_idx_change (cfg : IngestCfg) (env : String → FileEnv) :
    ∀ (files : List String) (st : RunState) (p : String),
      (files.foldl (runStep cfg env) st).idx p ≠ st.idx p →
      p ∈ files ∧ fileSucceeds cfg (env p) p = true ∧
      (files.foldl (runStep cfg env) st).idx p = fileHash cfg (env p) := by
  intro files
  induction files with
  | nil => intro st p h; exact absurd rfl h
  | cons f fs ih =>
    intro st p h
    rw [List.foldl_cons] at h ⊢
    by_cases h2 : (fs.foldl (runStep cfg env) (runStep cfg env st f)).idx p =
        (runStep cfg env st f).idx p
    · by_cases hpf : p = f
      · subst hpf
        cases hs : fileSucceeds cfg (env p) p with
        | false =>
          exfalso
          apply h
          rw [h2]
          show (processFile cfg (env p) p st.idx).idx p = st.idx p
          rw [(processFile_not_succ cfg (env p) p st.idx hs).1]
        | true =>
          obtain ⟨b, hb⟩ := fileSucceeds_read cfg (env p) p hs
          refine ⟨List.mem_cons_self p fs, rfl, ?_⟩
          rw [h2]
          by_cases hskip : st.idx p = some (cfg.hash b)
          · exfalso
            apply h
            rw [h2]
            show (processFile cfg (env p) p st.idx).idx p = st.idx p
            rw [processFile_skip cfg (env p) p st.idx b hb hskip]
          · have hsucc := processFile_succ cfg (env p) p st.idx b hb hskip hs
            show (processFile cfg (env p) p st.idx).idx p = fileHash cfg (env p)
            rw [hsucc.1]
            unfold fileHash
            rw [hb]
            simp [updateIdx]
      · exfalso
        apply h
        rw [h2]
        show (processFile cfg (env f) f st.idx).idx p = st.idx p
        exact processFile_other_idx cfg (env f) f st.idx p hpf
    · have hrec := ih (runStep cfg env st f) p h2
      exact ⟨List.mem_cons_of_mem f hrec.1, hrec.2.1, hrec.2.2⟩

theorem fileSucceeds_ok_ok (cfg : IngestCfg) (env : FileEnv) (path : String)
    (b : Bytes) (pages : List PageIn) (hr : env.readBytes = Except.ok b)
    (hx : env.extract = Except.ok pages) :
    fileSucceeds cfg env path =
      (!(fileChunks cfg env path).isEmpty &&
        exOk (env.embed (fileChunks cfg env path)) && exOk env.upsert) := by
  unfold fileSucceeds
  rw [hr, hx]

/-- C1: the checksum index entry for a file is advanced — and advanced
to the file's new checksum — only on the success path, after the
embedding call and the upsert completed for a non-empty chunk batch; on
a read, extract, embed or upsert error, or when zero chunks were
produced, the index is left entirely unchanged.  The final conjunct
states the run-level version over `ingest_paths`. -/
theorem checksum_index_advances_only_on_success (cfg : IngestCfg) :
    (∀ (env : FileEnv) (path : String) (idx : IngestIndex),
      (fileSucceeds cfg env path = false → (processFile cfg env path idx).idx = idx) ∧
      (∀ e, env.readBytes = Except.error e → (processFile cfg env path idx).idx = idx) ∧
      (∀ e, env.extract = Except.error e → (processFile cfg env path idx).idx = idx) ∧
      (fileChunks cfg env path = [] → (processFile cfg env path idx).idx = idx) ∧
      (∀ e, env.embed (fileChunks cfg env path) = Except.error e →
        (processFile cfg env path idx).idx = idx) ∧
      (∀ e, env.upsert = Except.error e → (processFile cfg env path idx).idx = idx) ∧
      (∀ p, (processFile cfg env path idx).idx p ≠ idx p →
        p = path ∧ fileSucceeds cfg env path = true ∧
        (processFile cfg env path idx).idx p = fileHash cfg env)) ∧
    (∀ (env : String → FileEnv) (files : List String) (idx : IngestIndex) (p : String),
      (ingestPaths cfg env files idx).idx p ≠ idx p →
      p ∈ files ∧ fileSucceeds cfg (env p) p = true ∧
      (ingestPaths cfg env files idx).idx p = fileHash cfg (env p)) := by
  constructor
  · intro env path idx
    refine ⟨?_, ?_, ?_, ?_, ?_, ?_, ?_⟩
    · intro h
      exact (processFile_not_succ cfg env path idx h).1
    · intro e he
      apply (processFile_not_succ cfg env path idx ?_).1
      unfold fileSucceeds
      rw [he]
    · intro e he
      apply (processFile_not_succ cfg env path idx ?_).1
      cases hr : env.readBytes with
      | error e2 => unfold fileSucceeds; rw [hr]
      | ok b => unfold fileSucceeds; rw [hr, he]
    · intro hch
      apply (processFile_not_succ cfg env path idx ?_).1
      cases hr : env.readBytes with
      | error e2 => unfold fileSucceeds; rw [hr]
      | ok b =>
        cases hx : env.extract with
        | error e2 => unfold fileSucceeds; rw [hr, hx]
        | ok pages =>
          rw [fileSucceeds_ok_ok cfg env path b pages hr hx, hch]
          rfl
    · intro e he
      apply (processFile_not_succ cfg env path idx ?_).1
      cases hr : env.readBytes with
      | error e2 => unfold fileSucceeds; rw [hr]
      | ok b =>
        cases hx : env.extract with
        | error e2 => unfold fileSucceeds; rw [hr, hx]
        | ok pages =>
          rw [fileSucceeds_ok_ok cfg env path b pages hr hx, he]
          simp [exOk]
    · intro e he
      apply (processFile_not_succ cfg env path idx ?_).1
      cases hr : env.readBytes with
      | error e2 => unfold fileSucceeds; rw [hr]
      | ok b =>
        cases hx : env.extract with
        | error e2 => unfold fileSucceeds; rw [hr, hx]
        | ok pages =>
          rw [fileSucceeds_ok_ok cfg env path b pages hr hx, he]
          simp [exOk]
    · intro p hp
      by_cases hpp : p = path
      · subst hpp
        cases hs : fileSucceeds cfg env p with
        | false =>
          exfalso
          apply hp
          rw [(processFile_not_succ cfg env p idx hs).1]
        | true =>
          obtain ⟨b, hb⟩ := fileSucceeds_read cfg env p hs
          refine ⟨rfl, rfl, ?_⟩
          by_cases hskip : idx p = some (cfg.hash b)
          · exfalso
            apply hp
            rw [processFile_skip cfg env p idx b hb hskip]
          · rw [(processFile_succ cfg env p idx b hb hskip hs).1]
            unfold fileHash
            rw [hb]
            simp [updateIdx]
      · exfalso
        apply hp
        exact processFile_other_idx cfg env path idx p hpp
  · intro env files idx p h
    exact foldl_idx_change cfg env files (initRun idx) p h

/-- Configuration and per-file environment for the C1 witness: the file
read itself fails. -/
def c1Cfg : IngestCfg := ⟨fun _ => "h", true, 200, true⟩

def c1Env : FileEnv :=
  ⟨Except.error "io", "t", Except.error "x", fun _ => Except.error "e", Except.error "u"⟩

/-- Witness for C1: a file whose read raises leaves the index unchanged. -/
theorem checksum_index_advances_only_on_success_witness :
    (processFile c1Cfg c1Env "a.pdf" (fun _ => none)).idx = (fun _ => none) :=
  ((checksum_index_advances_only_on_success c1Cfg).1 c1Env "a.pdf"
    (fun _ => none)).2.1 "io" rfl

/-- C2: a file whose bytes hash to the checksum stored in the index for
its path is skipped outright — zero embedding calls, zero store writes,
not counted in `files_processed`, index unchanged — and a second
`ingest_paths` run over the same files under the same environment
processes zero files and performs zero store writes. -/
theorem ingest_unchanged_idempotent (cfg : IngestCfg) :
    (∀ (env : FileEnv) (path : String) (idx : IngestIndex) (b : Bytes),
      env.readBytes = Except.ok b → idx path = some (cfg.hash b) →
      processFile cfg env path idx = ⟨idx, 0, 0, 0, 0, 0, [], []⟩) ∧
    (∀ (env : String → FileEnv) (files : List String) (idx : IngestIndex),
      (ingestPaths cfg env files (ingestPaths cfg env files idx).idx).filesProcessed = 0 ∧
      (ingestPaths cfg env files (ingestPaths cfg env files idx).idx).storeWrites = 0) := by
  constructor
  · intro env path idx b hb hskip
    exact processFile_skip cfg env path idx b hb hskip
  · intro env files idx
    have hpost : ∀ p ∈ files, fileSucceeds cfg (env p) p = true →
        (initRun (ingestPaths cfg env files idx).idx).idx p = fileHash cfg (env p) := by
      intro p hp hs
      show (ingestPaths cfg env files idx).idx p = _
      exact foldl_idx_success cfg env files (initRun idx) p hp hs
    have h := foldl_count_zero cfg env files
      (initRun (ingestPaths cfg env files idx).idx) hpost
    exact ⟨h.1, h.2⟩

/-- Configuration, environment and index for the C2 witness: the stored
checksum matches the file's bytes. -/
def c2Cfg : IngestCfg := ⟨fun _ => "h2", true, 200, true⟩

def c2Env : FileEnv :=
  ⟨Except.ok [1, 2], "t", Except.ok [], fun _ => Except.ok [], Except.ok ()⟩

def c2Idx : IngestIndex := fun p => if p = "a.pdf" then some "h2" else none

/-- Witness for C2: an unchanged file is skipped with all-zero deltas. -/
theorem ingest_unchanged_idempotent_witness :
    processFile c2Cfg c2Env "a.pdf" c2Idx = ⟨c2Idx, 0, 0, 0, 0, 0, [], []⟩ :=
  (ingest_unchanged_idempotent c2Cfg).1 c2Env "a.pdf" c2Idx [1, 2] rfl (by decide)

/-! ## Claim C5: chunk length bound and overlap seeding -/

theorem pyStrip_length_le (s : List Char) : (pyStrip s).length ≤ s.length := by
  unfold pyStrip
  rw [List.length_reverse]
  calc ((s.dropWhile pyIsSpace).reverse.dropWhile pyIsSpace).length
      ≤ (s.dropWhile pyIsSpace).reverse.length := dropWhileLenLe _ _
    _ = (s.dropWhile pyIsSpace).length := List.length_reverse _
    _ ≤ s.length := dropWhileLenLe _ _

theorem lastN_length_le (n : Nat) (s : List Char) : (lastN n s).length ≤ n := by
  unfold lastN
  rw [List.length_drop]
  omega

theorem joinSpace_append_le (xs : List (List Char)) (s : List Char) :
    (joinSpace (xs ++ [s])).length ≤ (joinSpace xs).length + 1 + s.length := by
  induction xs with
  | nil => simp [joinSpace]
  | cons x xs ih =>
    cases xs with
    | nil => simp [joinSpace]; omega
    | cons y ys =>
      have ih2 := ih
      rw [List.cons_append] at ih2
      rw [List.cons_append, List.cons_append]
      show (x ++ ' ' :: joinSpace (y :: (ys ++ [s]))).length ≤
        (x ++ ' ' :: joinSpace (y :: ys)).length + 1 + s.length
      simp only [List.length_append, List.length_cons]
      omega

/-- Invariant of the greedy packing loop: every closed chunk fits in
`chunkSize`, the joined buffer is no longer than the running counter,
and the counter itself is within the bound. -/
def ChunkInv (chunkSize : Nat) (st : ChunkState) : Prop :=
  (∀ c ∈ st.chunks, c.length ≤ chunkSize) ∧
  (joinSpace st.current).length ≤ st.currentLen ∧
  st.currentLen ≤ chunkSize

theorem closeChunk_bound (chunkSize : Nat) (st : ChunkState) (h : ChunkInv chunkSize st) :
    ∀ c ∈ closeChunk st, c.length ≤ chunkSize := by
  intro c hc
  unfold closeChunk at hc
  by_cases he : st.current.isEmpty
  · rw [if_pos he] at hc
    exact h.1 c hc
  · rw [if_neg he] at hc
    rcases List.mem_append.mp hc with h1 | h2
    · exact h.1 c h1
    · have hce : c = pyStrip (joinSpace st.current) := by simpa using h2
      rw [hce]
      calc (pyStrip (joinSpace st.current)).length
          ≤ (joinSpace st.current).length := pyStrip_length_le _
        _ ≤ st.currentLen := h.2.1
        _ ≤ chunkSize := h.2.2

theorem chunkStep_inv (chunkSize overlap : Nat) (st : ChunkState) (sent : List Char)
    (hsent : sent.length + overlap + 1 ≤ chunkSize) (h : ChunkInv chunkSize st) :
    ChunkInv chunkSize (chunkStep chunkSize overlap st sent) := by
  unfold chunkStep
  by_cases hg : st.currentLen + sent.length + 1 ≤ chunkSize
  · rw [if_pos hg]
    refine ⟨h.1, ?_, hg⟩
    have hj := joinSpace_append_le st.current sent
    have hb := h.2.1
    show (joinSpace (st.current ++ [sent])).length ≤ st.currentLen + sent.length + 1
    omega
  · rw [if_neg hg]
    have hclose := closeChunk_bound chunkSize st h
    have hcar := lastN_length_le overlap ((closeChunk st).getLastD [])
    by_cases hc : closeChunk st ≠ [] ∧ 0 < overlap
    · rw [if_pos hc]
      refine ⟨hclose, ?_, ?_⟩
      · show (joinSpace [lastN overlap ((closeChunk st).getLastD []), sent]).length ≤
          (lastN overlap ((closeChunk st).getLastD [])).length + 1 + sent.length
        simp only [joinSpace, List.length_append, List.length_cons]
        omega
      · show (lastN overlap ((closeChunk st).getLastD [])).length + 1 + sent.length ≤
          chunkSize
        omega
    · rw [if_neg hc]
      refine ⟨hclose, ?_, ?_⟩
      · show (joinSpace [sent]).length ≤ sent.length
        simp [joinSpace]
      · show sent.length ≤ chunkSize
        omega

theorem chunkFold_inv (chunkSize overlap : Nat) :
    ∀ (sents : List (List Char)) (st : ChunkState),
      (∀ s ∈ sents, s.length + overlap + 1 ≤ chunkSize) → ChunkInv chunkSize st →
      ChunkInv chunkSize (sents.foldl (chunkStep chunkSize overlap) st) := by
  intro sents
  induction sents with
  | nil => intro st _ h; exact h
  | cons s ss ih =>
    intro st hs h
    rw [List.foldl_cons]
    exact ih _ (fun x hx => hs x (List.mem_cons_of_mem s hx))
      (chunkStep_inv chunkSize overlap st s (hs s (List.mem_cons_self s ss)) h)

/-- C5 (amended): provided every sentence produced by the splitter has
length at most `chunk_size - overlap - 1`, every returned chunk
(including the last) has length at most `chunk_size`.  When the next
sentence would overflow, a previous chunk exists and `overlap > 0`, the
next buffer is seeded with exactly the last `overlap` characters (all of
them, if shorter) of the just-closed chunk followed by the sentence;
because that carry is then space-joined and whitespace-trimmed, the
returned consecutive chunks need not share exactly `overlap`
characters. -/
theorem chunk_bound_amended (text : List Char) (chunkSize overlap : Nat)
    (hs : ∀ s ∈ splitSentences (pyStrip text), s.length + overlap + 1 ≤ chunkSize) :
    (∀ c ∈ chunkText text chunkSize overlap, c.length ≤ chunkSize) ∧
    (∀ (st : ChunkState) (sent : List Char),
      ¬ st.currentLen + sent.length + 1 ≤ chunkSize →
      closeChunk st ≠ [] → 0 < overlap →
      (chunkStep chunkSize overlap st sent).current =
        [lastN overlap ((closeChunk st).getLastD []), sent]) := by
  constructor
  · intro c hc
    simp only [chunkText] at hc
    by_cases ht : (pyStrip text).isEmpty
    · rw [if_pos ht] at hc
      simp at hc
    · rw [if_neg ht] at hc
      have hmem := (List.mem_filter.mp hc).1
      set st := (splitSentences (pyStrip text)).foldl (chunkStep chunkSize overlap)
        (⟨[], [], 0⟩ : ChunkState) with hst
      have hinv : ChunkInv chunkSize st :=
        chunkFold_inv chunkSize overlap _ _ hs
          ⟨fun x hx => absurd hx (List.not_mem_nil x), by simp [joinSpace], Nat.zero_le _⟩
      by_cases hcc : (closeChunk st).isEmpty
      · rw [if_pos hcc] at hmem
        simp only [slicesFallback, List.mem_map] at hmem
        obtain ⟨k, _, hk⟩ := hmem
        rw [← hk]
        rw [List.length_take]
        omega
      · rw [if_neg hcc] at hmem
        exact closeChunk_bound chunkSize st hinv c hmem
  · intro st sent hg hne hov
    unfold chunkStep
    rw [if_neg hg, if_pos ⟨hne, hov⟩]

/-- Concrete input for the C5 counterexample. -/
def c5Text : List Char := "abc d. bbbbbbbbbbbbbbbb. c.".toList

/-- C5 counterexample: with `chunk_size = 10`, `overlap = 3`, the input
splits into three sentences, the middle (non-last) returned chunk has
length 20 > 10 (the carry plus an over-long sentence), and consecutive
chunks do not overlap by exactly 3 characters: the first chunk ends in
`" d."` but the second chunk starts with `"d. "` (the carried leading
space is removed by `strip`). -/
theorem chunk_bound_overlap_counterexample :
    chunkText c5Text 10 3 =
      ["abc d.".toList, "d. bbbbbbbbbbbbbbbb.".toList, "bb. c.".toList] ∧
    10 < (("d. bbbbbbbbbbbbbbbb.".toList : List Char)).length ∧
    ((chunkText c5Text 10 3).getD 1 []).take 3 ≠
      lastN 3 ((chunkText c5Text 10 3).getD 0 []) := by
  decide

/-- Sentence input for the C5 witness. -/
def c5WText : List Char := "Hi. Yo.".toList

/-- Witness for the amended C5 theorem at `chunk_size = 10`,
`overlap = 2` on `"Hi. Yo."`: the sentence bound holds and every chunk
fits. -/
theorem chunk_bound_amended_witness :
    (∀ s ∈ splitSentences (pyStrip c5WText), s.length + 2 + 1 ≤ 10) ∧
    (∀ c ∈ chunkText c5WText 10 2, c.length ≤ 10) :=
  ⟨by decide, (chunk_bound_amended c5WText 10 2 (by decide)).1⟩

/-! ## Claim C6: the fixed-width fallback of the chunker -/

/-- A single 25-character "sentence" with no sentence punctuation. -/
def c6Text : List Char := List.replicate 25 'a'

/-- C6: evaluation at the failing input — for a punctuation-free text
longer than `chunk_size` the chunker does NOT fall back to fixed-width
slicing: the sentence loop always closes the buffered text into a
chunk, so the `if not chunks` fallback branch never fires for non-empty
input, and the whole text is returned as one chunk exceeding
`chunk_size` (the fallback would have produced slices no longer than
`chunk_size`). -/
theorem chunk_fallback_unreachable_eval :
    chunkText c6Text 10 2 = [c6Text] ∧
    (chunkText c6Text 10 2).map List.length = [25] ∧
    (slicesFallback c6Text 10 2).map List.length = [10, 10, 9, 1] := by
  decide

/-! ## Claim C8: the `vlm_correction_applied` metadata flag -/

/-- Configuration for the C8 failing input: low-text OCR enabled with
threshold 200, VLM provider configured and enabled. -/
def c8Cfg : IngestCfg := ⟨fun _ => "ck", true, 200, true⟩

/-- The C8 failing page: native text `"Hi there."` (non-empty, below the
threshold, so the trigger reason is `low_text`) while the OCR call
fails/returns the empty string. -/
def c8Page : PageIn := ⟨"Hi there.".toList, []⟩

/-- C8: evaluation at the failing input — a `low_text` page whose OCR
returned nothing is ingested with its original native text (no
correction was applied), yet the metadata records
`vlm_correction_applied = true` and `vlm_provider = "openai"`, because
line 234 computes the flag as `bool(trigger_reason) and bool(text)`
rather than whether VLM text replaced the page text. -/
theorem vlm_correction_flag_eval :
    pyStrip c8Page.ocrText = [] ∧
    (processPage c8Cfg "a.pdf" "t" "ck" 0 c8Page).skipped = false ∧
    (processPage c8Cfg "a.pdf" "t" "ck" 0 c8Page).chunks = [pyStrip c8Page.nativeText] ∧
    (processPage c8Cfg "a.pdf" "t" "ck" 0 c8Page).metas.map ChunkMeta.vlmCorrectionApplied
      = [true] ∧
    (processPage c8Cfg "a.pdf" "t" "ck" 0 c8Page).metas.map ChunkMeta.vlmProvider
      = [some "openai"] := by
  decide

/-! ## Claim C9: the fields of `IngestResult` -/

/-- C9: evaluation of the field lists — the `/ingest` handler of app.py
reads `files_found` and `files_skipped` (among others) from the
returned value, but the `IngestResult` dataclass defines neither, so
the claimed fields do not all exist on the returned value. -/
theorem ingest_result_fields_eval :
    ("files_found" ∈ appIngestResponseFields) ∧
    ("files_skipped" ∈ appIngestResponseFields) ∧
    ("files_found" ∉ ingestResultFields) ∧
    ("files_skipped" ∉ ingestResultFields) ∧
    ¬ (∀ f ∈ appIngestResponseFields, f ∈ ingestResultFields) := by
  decide

end Spec2Proof
